import Mathlib

/-!
Shallow embedding of iota/crypto/types.py.

The source file defines Seed.random, SigningKey construction (length check
against BLOCK_LEN trytes), SigningKey.block_count and
SigningKey.get_digest_trits.  External collaborators (the Curl sponge, the
TryteString byte/tryte/trit conversions, HASH_LENGTH) are not in src; the
sponge is modelled as an abstract function parameter H (one fresh instance:
absorb the input, squeeze HASH_LENGTH trits) and the ternary conversions are
modelled from the spec where noted.
-/

namespace IotaCrypto

/-- HASH_LENGTH, imported by the source from iota.crypto: the Curl sponge
output width in trits, canonically 243 per the spec. -/
def HASH_LENGTH : Nat := 243

/-- Python list slicing l[a:b] for 0 ≤ a ≤ b, with both indices clamped to
the list length, as used by the source on trit lists. -/
def sliceList (l : List Int) (a b : Nat) : List Int := (l.drop a).take (b - a)

/-- Python slice assignment l[a:b] = v for 0 ≤ a ≤ b, with both indices
clamped to the list length (a start past the end inserts at the end). -/
def listSetSlice (l : List Int) (a b : Nat) (v : List Int) : List Int :=
  l.take a ++ v ++ l.drop b

/-- Modelled from the spec: the tryte-to-trit expansion of the ternary buffer
collaborator (TryteString.as_trits is outside src).  The spec fixes only that
each tryte encodes exactly 3 trits; we decompose the tryte value into 3
balanced-ternary digits. -/
def tryteToTrits (t : Int) : List Int :=
  let d0 := Int.bmod t 3
  let t1 := (t - d0) / 3
  let d1 := Int.bmod t1 3
  let t2 := (t1 - d1) / 3
  [d0, d1, Int.bmod t2 3]

/-- TryteString.as_trits over the stored trytes: 3 trits per tryte. -/
def asTrits (trytes : List Int) : List Int := trytes.flatMap tryteToTrits

/-- Modelled from the spec: the byte-to-tryte expansion used by
TryteString.from_bytes (outside src); the spec fixes only that each byte
expands to exactly 2 trytes. -/
def trytesFromBytes (bs : List Nat) : List Int :=
  bs.flatMap fun b => [(b : Int) % 27, ((b : Int) / 27) % 27]

/-- Seed.random(length, source): request int(ceil(length / 2)) bytes from the
entropy source and return their tryte expansion (2 trytes per byte).  In Nat
arithmetic ceil(length / 2) is (length + 1) / 2. -/
def Seed.random (length : Nat) (source : Nat → List Nat) : List Int :=
  trytesFromBytes (source ((length + 1) / 2))

/-- A SigningKey is a TryteString; we keep its stored tryte content. -/
structure SigningKey where
  trytes : List Int
  deriving Repr, DecidableEq

/-- SigningKey.BLOCK_LEN = 2187 trytes. -/
def SigningKey.BLOCK_LEN : Nat := 2187

/-- SigningKey.__init__: store the trytes, then raise ValueError when
len(self._trytes) % BLOCK_LEN is nonzero.  Failure is modelled as none. -/
def SigningKey.make (trytes : List Int) : Option SigningKey :=
  if trytes.length % SigningKey.BLOCK_LEN = 0 then some ⟨trytes⟩ else none

/-- SigningKey.block_count: len(self) // BLOCK_LEN. -/
def SigningKey.block_count (k : SigningKey) : Nat :=
  k.trytes.length / SigningKey.BLOCK_LEN

/-- The chained sponge rounds: for k in range(n): sponge = Curl();
sponge.absorb(buffer); sponge.squeeze(buffer).  Each iteration replaces the
buffer with one fresh-sponge absorb/squeeze, modelled by H. -/
def spongeChain (H : List Int → List Int) (n : Nat) (buf : List Int) : List Int :=
  (List.range n).foldl (fun b _ => H b) buf

/-- SigningKey.get_digest_trits, transliterated from the source.  H models
one fresh Curl instance: absorb the argument, then squeeze a HASH_LENGTH
buffer (squeeze fully overwrites the 243-trit buffer passed to it, so the
in-place squeeze of the code is the pure update buffer := H input). -/
def SigningKey.get_digest_trits (H : List Int → List Int) (k : SigningKey) : List Int :=
  let block_size := SigningKey.BLOCK_LEN * 3
  let raw_trits := asTrits k.trytes
  let digest : List Int := List.replicate HASH_LENGTH 0
  (List.range k.block_count).foldl
    (fun digest i =>
      let block_start := i * block_size
      let block_end := block_start + block_size
      let block_trits := sliceList raw_trits block_start block_end
      let key_fragment :=
        (List.range 27).foldl
          (fun kf j =>
            let hash_start := j * HASH_LENGTH
            let hash_end := hash_start + HASH_LENGTH
            let buffer := sliceList block_trits hash_start hash_end
            let buffer := spongeChain H 26 buffer
            listSetSlice kf hash_start hash_end buffer)
          (List.replicate block_size 0)
      let buffer := H key_fragment
      listSetSlice digest block_start block_end buffer)
    digest

/-- Instrumented transliteration of get_digest_trits that additionally counts
how many fresh sponge instances are constructed (one per Curl() in the
source: 26 per fragment chain round plus 1 final absorb per block). -/
def SigningKey.get_digest_trits_counted (H : List Int → List Int) (k : SigningKey) :
    List Int × Nat :=
  let block_size := SigningKey.BLOCK_LEN * 3
  let raw_trits := asTrits k.trytes
  (List.range k.block_count).foldl
    (fun acc i =>
      let block_start := i * block_size
      let block_end := block_start + block_size
      let block_trits := sliceList raw_trits block_start block_end
      let inner :=
        (List.range 27).foldl
          (fun (a : List Int × Nat) j =>
            let hash_start := j * HASH_LENGTH
            let hash_end := hash_start + HASH_LENGTH
            let buffer := sliceList block_trits hash_start hash_end
            let r := (List.range 26).foldl
              (fun (b : List Int × Nat) _ => (H b.1, b.2 + 1)) (buffer, a.2)
            (listSetSlice a.1 hash_start hash_end r.1, r.2))
          (List.replicate block_size 0, acc.2)
      let buffer := H inner.1
      (listSetSlice acc.1 block_start block_end buffer, inner.2 + 1))
    (List.replicate HASH_LENGTH 0, 0)

/-- State-passing rendering of the get_digest_trits method call: the method
reads self (BLOCK_LEN, as_trits, block_count) but its statements assign only
to the local lists digest, key_fragment and buffer, never to self, so the
object state after the call is the object state before it. -/
def SigningKey.get_digest_trits_method (H : List Int → List Int) (k : SigningKey) :
    List Int × SigningKey :=
  (SigningKey.get_digest_trits H k, k)

/-- Specification-side schedule for one fragment chain and one block digest
(the wording of the claims): 27 contiguous HASH_LENGTH fragments, each put
through 26 chained fresh-sponge rounds, concatenated into a block_size
key_fragment, then one more fresh sponge over the whole key_fragment. -/
def specKeyFragment (H : List Int → List Int) (blockTrits : List Int) : List Int :=
  (List.range 27).flatMap fun j =>
    spongeChain H 26 (sliceList blockTrits (j * HASH_LENGTH) (j * HASH_LENGTH + HASH_LENGTH))

/-- Specification-side digest segment of one block. -/
def specBlockDigest (H : List Int → List Int) (blockTrits : List Int) : List Int :=
  H (specKeyFragment H blockTrits)

/-- A concrete sponge stand-in used to instantiate witnesses: it always
squeezes the all-zero HASH_LENGTH buffer. -/
def H0 : List Int → List Int := fun _ => List.replicate HASH_LENGTH 0

/-- A concrete one-block key of zero trytes, used in witnesses. -/
def key1 : SigningKey := ⟨List.replicate SigningKey.BLOCK_LEN 0⟩

lemma length_tryteToTrits (t : Int) : (tryteToTrits t).length = 3 := rfl

lemma length_asTrits (ts : List Int) : (asTrits ts).length = 3 * ts.length := by
  induction ts with
  | nil => rfl
  | cons a l ih =>
      simp only [asTrits, List.flatMap_cons, List.length_append, List.length_cons,
        length_tryteToTrits] at *
      omega

lemma asTrits_append (a b : List Int) : asTrits (a ++ b) = asTrits a ++ asTrits b := by
  simp [asTrits, List.flatMap_append]

lemma spongeChain_succ (H : List Int → List Int) (n : Nat) (buf : List Int) :
    spongeChain H (n + 1) buf = H (spongeChain H n buf) := by
  simp [spongeChain, List.range_succ, List.foldl_append]

lemma length_spongeChain_pos (H : List Int → List Int)
    (hH : ∀ l, (H l).length = HASH_LENGTH) (n : Nat) (buf : List Int) :
    (spongeChain H (n + 1) buf).length = HASH_LENGTH := by
  rw [spongeChain_succ]; exact hH _

lemma length_flatMap_range {L : Nat} (g : Nat → List Int) (hg : ∀ j, (g j).length = L) :
    ∀ n, ((List.range n).flatMap g).length = n * L := by
  intro n
  induction n with
  | zero => simp
  | succ m ih =>
      rw [List.range_succ, List.flatMap_append, List.length_append, ih]
      simp [hg m]; ring

/-- The fragment write loop: starting from a zero buffer of exactly the right
size, writing a length-L segment at offset j*L for each j in range n fills the
buffer with the concatenation of the segments (pad is the tail left over). -/
lemma foldl_setSlice_fill {L : Nat} (g : Nat → List Int) (hg : ∀ j, (g j).length = L) :
    ∀ (n pad : Nat),
      (List.range n).foldl (fun kf j => listSetSlice kf (j * L) (j * L + L) (g j))
        (List.replicate (n * L + pad) 0)
      = (List.range n).flatMap g ++ List.replicate pad 0 := by
  intro n
  induction n with
  | zero => intro pad; simp
  | succ m ih =>
      intro pad
      have hlen : ((List.range m).flatMap g).length = m * L := length_flatMap_range g hg m
      have hinit : (m + 1) * L + pad = m * L + (L + pad) := by ring
      rw [List.range_succ, List.foldl_append, hinit, ih (L + pad), List.flatMap_append]
      simp only [List.foldl_cons, List.foldl_nil, List.flatMap_cons, List.flatMap_nil,
        List.append_nil, listSetSlice]
      rw [← hlen, List.take_left, List.drop_append, List.drop_replicate]
      simp [List.append_assoc]

/-- The digest write loop: the source seeds the digest with HASH_LENGTH zeros
and then writes each length-L segment at offset i*S (S = block_size trits, so
at block offsets, not segment offsets); because Python slice assignment clamps
its indices to the list length, every write from the second block on lands at
the end of the digest, so for at least one block the loop still produces the
plain concatenation of the segments. -/
lemma foldl_setSlice_digest {L S : Nat} (hLS : L ≤ S) (D : Nat → List Int)
    (hD : ∀ i, (D i).length = L) :
    ∀ b, 1 ≤ b →
      (List.range b).foldl (fun d i => listSetSlice d (i * S) (i * S + S) (D i))
        (List.replicate L 0)
      = (List.range b).flatMap D := by
  intro b hb
  induction b, hb using Nat.le_induction with
  | base =>
      have h1 : List.range 1 = [0] := by decide
      rw [h1]
      simp only [List.foldl_cons, List.foldl_nil, List.flatMap_cons,
        List.flatMap_nil, List.append_nil, listSetSlice, Nat.zero_mul, List.take_zero,
        Nat.zero_add, List.drop_replicate]
      simp [Nat.sub_eq_zero_of_le hLS]
  | succ m hm ih =>
      have hlen : ((List.range m).flatMap D).length = m * L := length_flatMap_range D hD m
      have hle : ((List.range m).flatMap D).length ≤ m * S := by
        rw [hlen]; exact Nat.mul_le_mul_left m hLS
      rw [List.range_succ, List.foldl_append, ih]
      simp only [List.foldl_cons, List.foldl_nil, List.flatMap_append, List.flatMap_cons,
        List.flatMap_nil, List.append_nil, listSetSlice]
      rw [List.take_of_length_le hle, List.drop_eq_nil_of_le (by omega), List.append_nil]

/-- The block slice of the raw trits of a key. -/
def blockSlice (k : SigningKey) (i : Nat) : List Int :=
  sliceList (asTrits k.trytes) (i * (SigningKey.BLOCK_LEN * 3))
    (i * (SigningKey.BLOCK_LEN * 3) + SigningKey.BLOCK_LEN * 3)

/-- Structural form of get_digest_trits: for a key with at least one block it
is the concatenation, in block order, of the per-block digest segments given
by the three-level schedule. -/
lemma get_digest_trits_eq_flatMap (H : List Int → List Int)
    (hH : ∀ l, (H l).length = HASH_LENGTH) (k : SigningKey)
    (hb : 1 ≤ k.block_count) :
    k.get_digest_trits H
      = (List.range k.block_count).flatMap fun i => specBlockDigest H (blockSlice k i) := by
  have hfrag : ∀ bt : List Int,
      (List.range 27).foldl
        (fun kf j =>
          listSetSlice kf (j * HASH_LENGTH) (j * HASH_LENGTH + HASH_LENGTH)
            (spongeChain H 26 (sliceList bt (j * HASH_LENGTH) (j * HASH_LENGTH + HASH_LENGTH))))
        (List.replicate (SigningKey.BLOCK_LEN * 3) 0)
      = specKeyFragment H bt := by
    intro bt
    have h27 : SigningKey.BLOCK_LEN * 3 = 27 * HASH_LENGTH + 0 := by
      simp [SigningKey.BLOCK_LEN, HASH_LENGTH]
    rw [h27, foldl_setSlice_fill
      (fun j => spongeChain H 26 (sliceList bt (j * HASH_LENGTH) (j * HASH_LENGTH + HASH_LENGTH)))
      (fun j => length_spongeChain_pos H hH 25 _) 27 0]
    simp [specKeyFragment]
  simp only [SigningKey.get_digest_trits]
  rw [List.foldl_ext _ (fun d i => listSetSlice d (i * (SigningKey.BLOCK_LEN * 3))
        (i * (SigningKey.BLOCK_LEN * 3) + SigningKey.BLOCK_LEN * 3)
        (specBlockDigest H (blockSlice k i))) _
      (fun d i _ => by rw [hfrag]; rfl)]
  exact foldl_setSlice_digest (by simp [HASH_LENGTH, SigningKey.BLOCK_LEN])
    (fun i => specBlockDigest H (blockSlice k i)) (fun i => hH _) k.block_count hb

/-- Segment extraction from a concatenation of equal-length pieces. -/
lemma flatMap_range_segment {L : Nat} (D : Nat → List Int) (hD : ∀ i, (D i).length = L) :
    ∀ b i, i < b →
      sliceList ((List.range b).flatMap D) (i * L) (i * L + L) = D i := by
  intro b i hib
  obtain ⟨r, hr⟩ : ∃ r, b = i + (r + 1) := ⟨b - i - 1, by omega⟩
  subst hr
  rw [List.range_add, List.flatMap_append]
  have hlen : ((List.range i).flatMap D).length = i * L := length_flatMap_range D hD i
  simp only [sliceList]
  rw [Nat.add_sub_cancel_left, ← hlen, List.drop_left, List.range_succ_eq_map]
  simp only [List.map_cons, List.flatMap_cons, Nat.add_zero]
  rw [← hD i, List.take_left]

lemma length_trytesFromBytes (bs : List Nat) :
    (trytesFromBytes bs).length = 2 * bs.length := by
  induction bs with
  | nil => rfl
  | cons a l ih =>
      simp only [trytesFromBytes, List.flatMap_cons, List.length_append, List.length_cons,
        List.length_nil, List.length_cons] at ih ⊢
      omega

/-- C1: for every valid SigningKey and every block i, get_digest_trits
computes the digest segment of block i by the three-level schedule: the block
trits are split into 27 contiguous HASH_LENGTH fragments, each fragment is
replaced by 26 chained rounds of a fresh sponge absorbing the buffer and
squeezing HASH_LENGTH trits back, the 27 buffers are written at offsets
j*HASH_LENGTH of a block_size key_fragment, and one final fresh sponge
absorbs the whole key_fragment and squeezes the HASH_LENGTH digest segment
(specBlockDigest restates the schedule in exactly those terms). -/
theorem C1_digest_block_schedule (H : List Int → List Int)
    (hH : ∀ l, (H l).length = HASH_LENGTH) (k : SigningKey)
    (hk : k.trytes.length % SigningKey.BLOCK_LEN = 0)
    (i : Nat) (hi : i < k.block_count) :
    sliceList (k.get_digest_trits H) (i * HASH_LENGTH) (i * HASH_LENGTH + HASH_LENGTH)
      = specBlockDigest H (blockSlice k i) := by
  rw [get_digest_trits_eq_flatMap H hH k (by omega)]
  exact flatMap_range_segment _ (fun j => hH _) k.block_count i hi

/-- Witness for C1 at the one-block zero key with the all-zero sponge. -/
theorem C1_digest_block_schedule_witness :
    sliceList (key1.get_digest_trits H0) (0 * HASH_LENGTH) (0 * HASH_LENGTH + HASH_LENGTH)
      = specBlockDigest H0 (blockSlice key1 0) :=
  C1_digest_block_schedule H0 (fun l => by simp [H0]) key1
    (by simp [key1]) 0
    (by norm_num [key1, SigningKey.block_count, SigningKey.BLOCK_LEN])

/-- C2 counterexample: the empty key is accepted by construction (its length
0 is a multiple of BLOCK_LEN) and has block_count 0, yet get_digest_trits
returns the pre-seeded HASH_LENGTH zero buffer, whose length HASH_LENGTH is
not block_count * HASH_LENGTH = 0. -/
theorem C2_counterexample :
    SigningKey.make [] = some ⟨[]⟩ ∧
    (SigningKey.get_digest_trits H0 ⟨[]⟩).length
      ≠ SigningKey.block_count ⟨[]⟩ * HASH_LENGTH := by
  constructor
  · simp [SigningKey.make]
  · simp only [SigningKey.get_digest_trits, SigningKey.block_count, List.length_nil,
      Nat.zero_div, List.range_zero, List.foldl_nil, List.length_replicate, Nat.zero_mul]
    simp [HASH_LENGTH]

/-- C2 amended: for every valid SigningKey with at least one block the digest
has length block_count * HASH_LENGTH and the digest segment of block i
occupies positions i*HASH_LENGTH .. (i+1)*HASH_LENGTH in block order; the
valid zero-block key instead yields the HASH_LENGTH-trit zero buffer. -/
theorem C2_digest_length_layout (H : List Int → List Int)
    (hH : ∀ l, (H l).length = HASH_LENGTH) (k : SigningKey)
    (hk : k.trytes.length % SigningKey.BLOCK_LEN = 0) :
    (1 ≤ k.block_count →
      (k.get_digest_trits H).length = k.block_count * HASH_LENGTH ∧
      ∀ i, i < k.block_count →
        sliceList (k.get_digest_trits H) (i * HASH_LENGTH) (i * HASH_LENGTH + HASH_LENGTH)
          = specBlockDigest H (blockSlice k i)) ∧
    (k.block_count = 0 → k.get_digest_trits H = List.replicate HASH_LENGTH 0) := by
  constructor
  · intro hb
    rw [get_digest_trits_eq_flatMap H hH k hb]
    exact ⟨length_flatMap_range _ (fun i => hH _) _,
      fun i hi => flatMap_range_segment _ (fun j => hH _) k.block_count i hi⟩
  · intro hb
    simp [SigningKey.get_digest_trits, hb]

/-- Witness for C2 at the one-block zero key with the all-zero sponge. -/
theorem C2_digest_length_layout_witness :
    ((1 ≤ key1.block_count →
      (key1.get_digest_trits H0).length = key1.block_count * HASH_LENGTH ∧
      ∀ i, i < key1.block_count →
        sliceList (key1.get_digest_trits H0) (i * HASH_LENGTH) (i * HASH_LENGTH + HASH_LENGTH)
          = specBlockDigest H0 (blockSlice key1 i)) ∧
    (key1.block_count = 0 → key1.get_digest_trits H0 = List.replicate HASH_LENGTH 0)) :=
  C2_digest_length_layout H0 (fun l => by simp [H0]) key1 (by simp [key1])

/-- C3: construction fails exactly when the trit length is not divisible by
BLOCK_LEN * 3 (equivalently, the tryte length is not divisible by BLOCK_LEN
= 2187); in particular a BLOCK_LEN - 1 tryte input fails, and every exact
multiple is accepted with the buffer stored unchanged. -/
theorem C3_construction_validation (ts : List Int) :
    (SigningKey.make ts = none ↔ ¬ (SigningKey.BLOCK_LEN * 3 ∣ 3 * ts.length)) ∧
    (ts.length = SigningKey.BLOCK_LEN - 1 → SigningKey.make ts = none) ∧
    (ts.length % SigningKey.BLOCK_LEN = 0 → SigningKey.make ts = some ⟨ts⟩) := by
  simp only [SigningKey.make, SigningKey.BLOCK_LEN]
  refine ⟨?_, ?_, ?_⟩
  · by_cases h : ts.length % 2187 = 0 <;> simp [h] <;> omega
  · intro h; simp [h]
  · intro h; simp [h]

/-- Witness for C3: one tryte short of a block is rejected, a full block is
accepted unchanged. -/
theorem C3_construction_validation_witness :
    SigningKey.make (List.replicate 2186 (0 : Int)) = none ∧
    SigningKey.make (List.replicate 2187 (0 : Int)) = some ⟨List.replicate 2187 0⟩ :=
  ⟨(C3_construction_validation (List.replicate 2186 0)).2.1
      (by simp only [List.length_replicate, SigningKey.BLOCK_LEN]),
   (C3_construction_validation (List.replicate 2187 0)).2.2
      (by simp only [List.length_replicate, SigningKey.BLOCK_LEN, Nat.mod_self])⟩

/-- C5: get_digest_trits is a pure function of the trit content of the key:
keys with identical trit content yield identical digests (the embedding has
no other state the result could depend on). -/
theorem C5_deterministic (H : List Int → List Int) (k1 k2 : SigningKey)
    (h : asTrits k1.trytes = asTrits k2.trytes) :
    k1.get_digest_trits H = k2.get_digest_trits H := by
  have h1 := length_asTrits k1.trytes
  have h2 := length_asTrits k2.trytes
  rw [h] at h1
  have hlen : k1.trytes.length = k2.trytes.length := by omega
  simp only [SigningKey.get_digest_trits, SigningKey.block_count, hlen, h]

/-- Witness for C5 at the one-block zero key. -/
theorem C5_deterministic_witness :
    key1.get_digest_trits H0 = key1.get_digest_trits H0 :=
  C5_deterministic H0 key1 key1 rfl

/-- C6: Seed.random requests exactly ceil(min_length / 2) bytes from the
entropy source and returns exactly their byte-to-tryte expansion; the
resulting tryte length is 2 * ceil(min_length / 2), hence even and at least
min_length; no lower bound on min_length is enforced (the statement holds
for every min_length, including 0). -/
theorem C6_seed_random (length : Nat) (source : Nat → List Nat)
    (hs : ∀ n, (source n).length = n) :
    Seed.random length source = trytesFromBytes (source ((length + 1) / 2)) ∧
    (Seed.random length source).length = 2 * ((length + 1) / 2) ∧
    2 ∣ (Seed.random length source).length ∧
    length ≤ (Seed.random length source).length := by
  have hlen : (Seed.random length source).length = 2 * ((length + 1) / 2) := by
    simp [Seed.random, length_trytesFromBytes, hs]
  exact ⟨rfl, hlen, ⟨(length + 1) / 2, hlen⟩, by rw [hlen]; omega⟩

/-- Witness for C6 at min_length 81 with an all-zero entropy source. -/
theorem C6_seed_random_witness :
    Seed.random 81 (fun n => List.replicate n 0)
        = trytesFromBytes ((fun n => List.replicate n 0) ((81 + 1) / 2)) ∧
    (Seed.random 81 (fun n => List.replicate n 0)).length = 2 * ((81 + 1) / 2) ∧
    2 ∣ (Seed.random 81 (fun n => List.replicate n 0)).length ∧
    81 ≤ (Seed.random 81 (fun n => List.replicate n 0)).length :=
  C6_seed_random 81 (fun n => List.replicate n 0) (fun n => by simp)

/-- C7: for every key satisfying the construction invariant, block_count is
the exact quotient: block_count * BLOCK_LEN recovers the tryte length. -/
theorem C7_block_count_exact (k : SigningKey)
    (h : k.trytes.length % SigningKey.BLOCK_LEN = 0) :
    k.block_count * SigningKey.BLOCK_LEN = k.trytes.length :=
  Nat.div_mul_cancel (Nat.dvd_of_mod_eq_zero h)

/-- Witness for C7 at the one-block zero key. -/
theorem C7_block_count_exact_witness :
    key1.block_count * SigningKey.BLOCK_LEN = key1.trytes.length :=
  C7_block_count_exact key1 (by simp [key1])

/-- C9: the empty key is accepted (0 is a multiple of BLOCK_LEN), has
block_count 0, and its digest is the pre-initialized list of HASH_LENGTH
zero trits, whatever the sponge does (the block loop body never runs). -/
theorem C9_empty_key (H : List Int → List Int) :
    SigningKey.make [] = some ⟨[]⟩ ∧
    SigningKey.block_count ⟨[]⟩ = 0 ∧
    SigningKey.get_digest_trits H ⟨[]⟩ = List.replicate HASH_LENGTH 0 := by
  refine ⟨by simp [SigningKey.make], by simp [SigningKey.block_count], ?_⟩
  simp [SigningKey.get_digest_trits, SigningKey.block_count]

/-- C10: the digest computation does not modify the key it is called on: the
method only reads self (its statements assign to the local lists digest,
key_fragment and buffer), so the object state after the call equals the
state before it, the digest is the one computed from that unchanged key, and
a repeated call on the post-state returns the same digest. -/
theorem C10_no_mutation (H : List Int → List Int) (k : SigningKey) :
    (SigningKey.get_digest_trits_method H k).2 = k ∧
    (SigningKey.get_digest_trits_method H k).1 = SigningKey.get_digest_trits H k ∧
    (SigningKey.get_digest_trits_method H
        ((SigningKey.get_digest_trits_method H k).2)).1
      = (SigningKey.get_digest_trits_method H k).1 :=
  ⟨rfl, rfl, rfl⟩

/-- C4: concatenating two single-block keys yields a two-block key whose
digest is the concatenation of the two independent digests: the first
HASH_LENGTH trits equal the digest of A and the next HASH_LENGTH trits equal
the digest of B. -/
theorem C4_concat_blocks (H : List Int → List Int)
    (hH : ∀ l, (H l).length = HASH_LENGTH) (A B : SigningKey)
    (hA : A.trytes.length = SigningKey.BLOCK_LEN)
    (hB : B.trytes.length = SigningKey.BLOCK_LEN) :
    sliceList (SigningKey.get_digest_trits H ⟨A.trytes ++ B.trytes⟩) 0 HASH_LENGTH
      = A.get_digest_trits H ∧
    sliceList (SigningKey.get_digest_trits H ⟨A.trytes ++ B.trytes⟩) HASH_LENGTH
        (HASH_LENGTH + HASH_LENGTH)
      = B.get_digest_trits H := by
  have hpos : 0 < SigningKey.BLOCK_LEN := by norm_num [SigningKey.BLOCK_LEN]
  have hlenA : (asTrits A.trytes).length = SigningKey.BLOCK_LEN * 3 := by
    rw [length_asTrits, hA]; ring
  have hlenB : (asTrits B.trytes).length = SigningKey.BLOCK_LEN * 3 := by
    rw [length_asTrits, hB]; ring
  have hbcA : A.block_count = 1 := by
    simp only [SigningKey.block_count, hA]; exact Nat.div_self hpos
  have hbcB : B.block_count = 1 := by
    simp only [SigningKey.block_count, hB]; exact Nat.div_self hpos
  have hbcAB : (SigningKey.mk (A.trytes ++ B.trytes)).block_count = 2 := by
    simp only [SigningKey.block_count, List.length_append, hA, hB]
    norm_num [SigningKey.BLOCK_LEN]
  have hsA : blockSlice (SigningKey.mk (A.trytes ++ B.trytes)) 0 = asTrits A.trytes := by
    simp only [blockSlice, Nat.zero_mul, Nat.zero_add, sliceList, List.drop_zero, Nat.sub_zero]
    rw [asTrits_append, ← hlenA, List.take_left]
  have hsB : blockSlice (SigningKey.mk (A.trytes ++ B.trytes)) 1 = asTrits B.trytes := by
    simp only [blockSlice, Nat.one_mul, sliceList, Nat.add_sub_cancel_left]
    rw [asTrits_append, ← hlenA, List.drop_left]
    exact List.take_of_length_le (le_of_eq (hlenB.trans hlenA.symm))
  have hsA1 : blockSlice A 0 = asTrits A.trytes := by
    simp only [blockSlice, Nat.zero_mul, Nat.zero_add, sliceList, List.drop_zero, Nat.sub_zero]
    exact List.take_of_length_le (le_of_eq hlenA)
  have hsB1 : blockSlice B 0 = asTrits B.trytes := by
    simp only [blockSlice, Nat.zero_mul, Nat.zero_add, sliceList, List.drop_zero, Nat.sub_zero]
    exact List.take_of_length_le (le_of_eq hlenB)
  have hdA : A.get_digest_trits H = specBlockDigest H (asTrits A.trytes) := by
    rw [get_digest_trits_eq_flatMap H hH A hbcA.ge, hbcA,
      show List.range 1 = [0] by decide]
    simp [hsA1]
  have hdB : B.get_digest_trits H = specBlockDigest H (asTrits B.trytes) := by
    rw [get_digest_trits_eq_flatMap H hH B hbcB.ge, hbcB,
      show List.range 1 = [0] by decide]
    simp [hsB1]
  have hdAB : (SigningKey.mk (A.trytes ++ B.trytes)).get_digest_trits H
      = specBlockDigest H (asTrits A.trytes) ++ specBlockDigest H (asTrits B.trytes) := by
    rw [get_digest_trits_eq_flatMap H hH _ (by rw [hbcAB]; norm_num), hbcAB,
      show List.range 2 = [0, 1] by decide]
    simp [hsA, hsB]
  constructor
  · rw [hdAB, hdA]
    have hl : (specBlockDigest H (asTrits A.trytes)).length = HASH_LENGTH := hH _
    simp only [sliceList, List.drop_zero, Nat.sub_zero]
    rw [← hl, List.take_left]
  · rw [hdAB, hdB]
    have hlA : (specBlockDigest H (asTrits A.trytes)).length = HASH_LENGTH := hH _
    have hlB : (specBlockDigest H (asTrits B.trytes)).length = HASH_LENGTH := hH _
    simp only [sliceList, Nat.add_sub_cancel_left]
    rw [← hlA, List.drop_left]
    exact List.take_of_length_le (le_of_eq (hlB.trans hlA.symm))

/-- Witness for C4 with both halves the one-block zero key. -/
theorem C4_concat_blocks_witness :
    sliceList (SigningKey.get_digest_trits H0 ⟨key1.trytes ++ key1.trytes⟩) 0 HASH_LENGTH
      = key1.get_digest_trits H0 ∧
    sliceList (SigningKey.get_digest_trits H0 ⟨key1.trytes ++ key1.trytes⟩) HASH_LENGTH
        (HASH_LENGTH + HASH_LENGTH)
      = key1.get_digest_trits H0 :=
  C4_concat_blocks H0 (fun l => by simp [H0]) key1 key1
    (by simp only [key1, List.length_replicate])
    (by simp only [key1, List.length_replicate])

lemma counted_inner (H : List Int → List Int) :
    ∀ (n : Nat) (bt : List Int) (c : Nat),
      (List.range n).foldl (fun (b : List Int × Nat) _ => (H b.1, b.2 + 1)) (bt, c)
        = (spongeChain H n bt, c + n) := by
  intro n
  induction n with
  | zero => intro bt c; simp [spongeChain]
  | succ m ih =>
      intro bt c
      rw [List.range_succ, List.foldl_append, ih, List.foldl_cons, List.foldl_nil,
        spongeChain_succ]
      rfl

lemma counted_fragment (H : List Int → List Int) (bt : List Int) :
    ∀ (n : Nat) (kf : List Int) (c : Nat),
      (List.range n).foldl
          (fun (a : List Int × Nat) j =>
            (listSetSlice a.1 (j * HASH_LENGTH) (j * HASH_LENGTH + HASH_LENGTH)
              ((List.range 26).foldl (fun (b : List Int × Nat) _ => (H b.1, b.2 + 1))
                (sliceList bt (j * HASH_LENGTH) (j * HASH_LENGTH + HASH_LENGTH), a.2)).1,
             ((List.range 26).foldl (fun (b : List Int × Nat) _ => (H b.1, b.2 + 1))
                (sliceList bt (j * HASH_LENGTH) (j * HASH_LENGTH + HASH_LENGTH), a.2)).2))
          (kf, c)
        = ((List.range n).foldl
            (fun kf j =>
              listSetSlice kf (j * HASH_LENGTH) (j * HASH_LENGTH + HASH_LENGTH)
                (spongeChain H 26
                  (sliceList bt (j * HASH_LENGTH) (j * HASH_LENGTH + HASH_LENGTH))))
            kf, c + n * 26) := by
  intro n
  induction n with
  | zero => intro kf c; simp
  | succ m ih =>
      intro kf c
      rw [List.range_succ m, List.foldl_append, List.foldl_append, ih]
      simp only [List.foldl_cons, List.foldl_nil]
      rw [counted_inner, Prod.mk.injEq]
      refine ⟨rfl, ?_⟩
      show c + m * 26 + 26 = c + (m + 1) * 26
      ring

lemma counted_outer (H : List Int → List Int) (raw : List Int) :
    ∀ (b : Nat) (d : List Int) (c : Nat),
      (List.range b).foldl
          (fun (acc : List Int × Nat) i =>
            (listSetSlice acc.1 (i * (SigningKey.BLOCK_LEN * 3))
                (i * (SigningKey.BLOCK_LEN * 3) + SigningKey.BLOCK_LEN * 3)
                (H ((List.range 27).foldl
                    (fun (a : List Int × Nat) j =>
                      (listSetSlice a.1 (j * HASH_LENGTH) (j * HASH_LENGTH + HASH_LENGTH)
                        ((List.range 26).foldl (fun (b : List Int × Nat) _ => (H b.1, b.2 + 1))
                          (sliceList (sliceList raw (i * (SigningKey.BLOCK_LEN * 3))
                              (i * (SigningKey.BLOCK_LEN * 3) + SigningKey.BLOCK_LEN * 3))
                            (j * HASH_LENGTH) (j * HASH_LENGTH + HASH_LENGTH), a.2)).1,
                       ((List.range 26).foldl (fun (b : List Int × Nat) _ => (H b.1, b.2 + 1))
                          (sliceList (sliceList raw (i * (SigningKey.BLOCK_LEN * 3))
                              (i * (SigningKey.BLOCK_LEN * 3) + SigningKey.BLOCK_LEN * 3))
                            (j * HASH_LENGTH) (j * HASH_LENGTH + HASH_LENGTH), a.2)).2))
                    (List.replicate (SigningKey.BLOCK_LEN * 3) 0, acc.2)).1),
             ((List.range 27).foldl
                 (fun (a : List Int × Nat) j =>
                   (listSetSlice a.1 (j * HASH_LENGTH) (j * HASH_LENGTH + HASH_LENGTH)
                     ((List.range 26).foldl (fun (b : List Int × Nat) _ => (H b.1, b.2 + 1))
                       (sliceList (sliceList raw (i * (SigningKey.BLOCK_LEN * 3))
                           (i * (SigningKey.BLOCK_LEN * 3) + SigningKey.BLOCK_LEN * 3))
                         (j * HASH_LENGTH) (j * HASH_LENGTH + HASH_LENGTH), a.2)).1,
                    ((List.range 26).foldl (fun (b : List Int × Nat) _ => (H b.1, b.2 + 1))
                       (sliceList (sliceList raw (i * (SigningKey.BLOCK_LEN * 3))
                           (i * (SigningKey.BLOCK_LEN * 3) + SigningKey.BLOCK_LEN * 3))
                         (j * HASH_LENGTH) (j * HASH_LENGTH + HASH_LENGTH), a.2)).2))
                 (List.replicate (SigningKey.BLOCK_LEN * 3) 0, acc.2)).2 + 1))
          (d, c)
        = ((List.range b).foldl
            (fun digest i =>
              listSetSlice digest (i * (SigningKey.BLOCK_LEN * 3))
                (i * (SigningKey.BLOCK_LEN * 3) + SigningKey.BLOCK_LEN * 3)
                (H ((List.range 27).foldl
                    (fun kf j =>
                      listSetSlice kf (j * HASH_LENGTH) (j * HASH_LENGTH + HASH_LENGTH)
                        (spongeChain H 26
                          (sliceList (sliceList raw (i * (SigningKey.BLOCK_LEN * 3))
                              (i * (SigningKey.BLOCK_LEN * 3) + SigningKey.BLOCK_LEN * 3))
                            (j * HASH_LENGTH) (j * HASH_LENGTH + HASH_LENGTH))))
                    (List.replicate (SigningKey.BLOCK_LEN * 3) 0)))) d,
           c + b * (27 * 26 + 1)) := by
  intro b
  induction b with
  | zero => intro d c; simp
  | succ m ih =>
      intro d c
      rw [List.range_succ m, List.foldl_append, List.foldl_append, ih]
      simp only [List.foldl_cons, List.foldl_nil]
      rw [counted_fragment, Prod.mk.injEq]
      refine ⟨rfl, ?_⟩
      show c + m * (27 * 26 + 1) + 27 * 26 + 1 = c + (m + 1) * (27 * 26 + 1)
      ring

/-- C8: get_digest_trits terminates (the embedding is a total structural
recursion) and the instrumented transliteration shows it constructs exactly
block_count * (27 * 26 + 1) sponge instances — 26 per chained round of each
of the 27 fragments plus 1 final absorb per block — while computing the same
digest; each counted instance is, by the shape of the loop bodies, freshly
constructed for exactly one absorb followed by one squeeze and never reused
across rounds, fragments, or blocks. -/
theorem C8_sponge_count (H : List Int → List Int) (k : SigningKey) :
    SigningKey.get_digest_trits_counted H k
      = (k.get_digest_trits H, k.block_count * (27 * 26 + 1)) := by
  simp only [SigningKey.get_digest_trits_counted, SigningKey.get_digest_trits]
  rw [counted_outer H (asTrits k.trytes) k.block_count (List.replicate HASH_LENGTH 0) 0,
    Nat.zero_add]

end IotaCrypto
